import Mathlib

set_option maxHeartbeats 1000000

/-! Verification of the stage-reproduction scheduler of `src/dvc/repo/reproduce.py`.

The definitions below embed the functions of that file: the traversal-order
computation of `_reproduce_stages` (networkx `dfs_postorder_nodes` over the
stage graph in forward mode, `dfs_preorder_nodes` over a reversed copy in
downstream mode), the per-stage executor `_reproduce_stage`, the per-target
dispatcher `_reproduce`, and the top-level `reproduce` entry point.  External
collaborators (networkx graphs, `Stage.load`, `stage.reproduce`,
`stage.dump`, the repo config) are modelled as explicit data and environment
functions; side effects (warnings, stage dumps, reproduction invocations)
are recorded in an explicit effect log threaded through the computation. -/

/-- A networkx-style directed graph: a list of node names and a list of
directed edges, adjacency iterated in insertion order.  In the dvc stage
graph an edge points from a dependent stage to one of its dependencies. -/
structure Graph where
  nodes : List String
  edges : List (String × String)
deriving DecidableEq

/-- Successors of `u` in adjacency (insertion) order, as networkx iterates
them during a depth-first search. -/
def succs (G : Graph) (u : String) : List String :=
  (G.edges.filter (fun e => e.1 == u)).map (fun e => e.2)

/-- The edge relation of the graph. -/
def edgeRel (G : Graph) (u v : String) : Prop := (u, v) ∈ G.edges

instance (G : Graph) (u v : String) : Decidable (edgeRel G u v) :=
  inferInstanceAs (Decidable ((u, v) ∈ G.edges))

/-- Both endpoints of every edge are nodes of the graph (networkx
guarantees this: adding an edge adds its endpoints). -/
def WFgraph (G : Graph) : Prop := ∀ e ∈ G.edges, e.1 ∈ G.nodes ∧ e.2 ∈ G.nodes

instance (G : Graph) : Decidable (WFgraph G) :=
  inferInstanceAs (Decidable (∀ e ∈ G.edges, e.1 ∈ G.nodes ∧ e.2 ∈ G.nodes))

/-- No directed cycle in the graph (an invariant of the dvc stage graph,
enforced by the external graph builder). -/
def Acyclic (G : Graph) : Prop := ∀ n, ¬ Relation.TransGen (edgeRel G) n n

lemma mem_succs_iff (G : Graph) (u v : String) : v ∈ succs G u ↔ edgeRel G u v := by
  simp only [succs, List.mem_map, List.mem_filter, beq_iff_eq, edgeRel]
  constructor
  · rintro ⟨e, ⟨he, h1⟩, h2⟩
    cases e
    simp_all
  · intro h
    exact ⟨(u, v), ⟨h, rfl⟩, rfl⟩

lemma length_filter_le_of_imp {α : Type} (l : List α) (p q : α → Bool)
    (h : ∀ x, q x = true → p x = true) :
    (l.filter q).length ≤ (l.filter p).length := by
  induction l with
  | nil => simp
  | cons a l ih =>
    by_cases hq : q a = true
    · have hp := h a hq
      simp only [List.filter_cons, hq, hp, if_true, List.length_cons]
      omega
    · have hq' : q a = false := by revert hq; cases q a <;> simp
      by_cases hp : p a = true
      · simp only [List.filter_cons, hq', hp]
        simp only [Bool.false_eq_true, if_false, if_true, List.length_cons]
        omega
      · have hp' : p a = false := by revert hp; cases p a <;> simp
        simp only [List.filter_cons, hq', hp', Bool.false_eq_true, if_false]
        exact ih

lemma length_filter_lt_of_imp {α : Type} (l : List α) (p q : α → Bool)
    (h : ∀ x, q x = true → p x = true) (x₀ : α) (hx : x₀ ∈ l)
    (hp : p x₀ = true) (hq : q x₀ = false) :
    (l.filter q).length < (l.filter p).length := by
  induction l with
  | nil => simp at hx
  | cons a l ih =>
    rcases List.mem_cons.mp hx with rfl | hx'
    · simp only [List.filter_cons, hq, hp, Bool.false_eq_true, if_false, if_true,
        List.length_cons]
      have := length_filter_le_of_imp l p q h
      omega
    · by_cases hqa : q a = true
      · have hpa := h a hqa
        simp only [List.filter_cons, hqa, hpa, if_true, List.length_cons]
        have := ih hx'
        omega
      · have hqa' : q a = false := by revert hqa; cases q a <;> simp
        by_cases hpa : p a = true
        · simp only [List.filter_cons, hqa', hpa, Bool.false_eq_true, if_false, if_true,
            List.length_cons]
          have := ih hx'
          omega
        · have hpa' : p a = false := by revert hpa; cases p a <;> simp
          simp only [List.filter_cons, hqa', hpa', Bool.false_eq_true, if_false]
          exact ih hx'

/-- Number of graph nodes not yet on the grey (currently-open) stack:
the decreasing part of the DFS termination measure. -/
def greyMeasure (G : Graph) (grey : List String) : Nat :=
  (G.nodes.filter (fun x => decide (x ∉ grey))).length

lemma greyMeasure_cons_lt (G : Graph) (grey : List String) (u : String)
    (hu : u ∈ G.nodes) (hg : u ∉ grey) :
    greyMeasure G (u :: grey) < greyMeasure G grey := by
  apply length_filter_lt_of_imp G.nodes _ _ _ u hu
  · simp [hg]
  · simp
  · intro x hx
    simp only [decide_eq_true_eq] at hx ⊢
    intro hmem
    exact hx (List.mem_cons_of_mem _ hmem)

lemma succs_length_le (G : Graph) (u : String) :
    (succs G u).length ≤ G.edges.length := by
  simp only [succs, List.length_map]
  exact List.length_filter_le _ _

lemma dfs_measure_lt (f' f E s v : Nat) (h1 : f' < f) (h2 : s ≤ E) :
    f' * (E + 1) + s < f * (E + 1) + v := by
  have e2 : f' * (E + 1) + (E + 1) = (f' + 1) * (E + 1) := by ring
  have e3 : (f' + 1) * (E + 1) ≤ f * (E + 1) :=
    Nat.mul_le_mul (by omega) (le_refl _)
  omega

/-- Embedding of networkx `dfs_postorder_nodes(G, source)` as used on line 151
of `reproduce.py`, generalised to a worklist: process the pending nodes `us`
in order; for a fresh node, first traverse its successors depth-first, then
append the node itself to the output.  `visited` accumulates the finished
nodes in postorder.  `grey` holds the nodes currently open on the DFS stack;
for the acyclic graphs dvc builds a grey node is never re-encountered, so the
grey test only serves as the termination measure. -/
def dfsPostList (G : Graph) (grey us visited : List String) : List String :=
  match us with
  | [] => visited
  | u :: vs =>
    if h : u ∈ visited ∨ u ∈ grey ∨ u ∉ G.nodes then
      dfsPostList G grey vs visited
    else
      dfsPostList G grey vs (dfsPostList G (u :: grey) (succs G u) visited ++ [u])
termination_by greyMeasure G grey * (G.edges.length + 1) + us.length
decreasing_by
  · simp only [List.length_cons]
    omega
  · push_neg at h
    exact dfs_measure_lt _ _ _ _ _
      (greyMeasure_cons_lt G grey u h.2.2 h.2.1) (succs_length_le G u)
  · simp only [List.length_cons]
    omega

/-- Forward traversal order: networkx `dfs_postorder_nodes(G, node)`. -/
def dfsPost (G : Graph) (start : String) : List String :=
  dfsPostList G [] [start] []

/-- Embedding of networkx `dfs_preorder_nodes(G, source)` as used on line 149
of `reproduce.py`, generalised to a worklist: process the pending nodes `us`
in order; a fresh node is appended to the output first and its successors are
then traversed depth-first.  A preorder DFS marks a node visited before
descending, so every grey (currently open) node is already in `visited` and
the grey test never changes the result; it only serves as the termination
measure. -/
def dfsPreList (G : Graph) (grey us visited : List String) : List String :=
  match us with
  | [] => visited
  | u :: vs =>
    if h : u ∈ visited ∨ u ∈ grey ∨ u ∉ G.nodes then
      dfsPreList G grey vs visited
    else
      dfsPreList G grey vs (dfsPreList G (u :: grey) (succs G u) (visited ++ [u]))
termination_by greyMeasure G grey * (G.edges.length + 1) + us.length
decreasing_by
  · simp only [List.length_cons]
    omega
  · push_neg at h
    exact dfs_measure_lt _ _ _ _ _
      (greyMeasure_cons_lt G grey u h.2.2 h.2.1) (succs_length_le G u)
  · simp only [List.length_cons]
    omega

/-- Downstream traversal order: networkx `dfs_preorder_nodes(G, node)`. -/
def dfsPre (G : Graph) (start : String) : List String :=
  dfsPreList G [] [start] []

/-- Embedding of networkx `G.copy()` (line 149 of `reproduce.py`): a fresh
graph with the same nodes and edges. -/
def copyGraph (G : Graph) : Graph := ⟨G.nodes, G.edges⟩

/-- Embedding of networkx `H.reverse(copy=False)` (line 149): a view of the
graph with every edge flipped; the graph it is applied to is not modified. -/
def reverseGraph (G : Graph) : Graph :=
  ⟨G.nodes, G.edges.map (fun e => (e.2, e.1))⟩

/-- The node sequence `_reproduce_stages` iterates (lines 143-151 of
`reproduce.py`): a preorder DFS of the reversed copy of the graph when
`downstream` is set, a postorder DFS of the graph itself otherwise. -/
def reproPipeline (G : Graph) (node : String) (downstream : Bool) : List String :=
  if downstream then dfsPre (reverseGraph (copyGraph G)) node
  else dfsPost G node

/-- The linear chain of the spec: stage C depends on B, B depends on A. -/
def chainG : Graph := ⟨["A", "B", "C"], [("C", "B"), ("B", "A")]⟩

/-- A diamond: D depends on B and on C, each of which depends on A. -/
def diamondG : Graph :=
  ⟨["A", "B", "C", "D"], [("D", "B"), ("D", "C"), ("B", "A"), ("C", "A")]⟩

/-- Python exceptions that flow through `reproduce.py`: the
`ReproductionError(relpath, cause)` raised on line 170, the bare
`ValueError` raised on line 45 when neither a target nor all-pipelines mode
is given, and anything an external collaborator may raise. -/
inductive PyErr where
  | reproductionError (relpath : String) (cause : PyErr)
  | valueError
  | other (msg : String)
deriving DecidableEq

/-- The keyword options forwarded through `**kwargs` to each
`stage.reproduce` call: `force`, `dry`, and `interactive` (absent when the
caller did not pass it). -/
structure Kw where
  force : Bool
  dry : Bool
  interactive : Option Bool
deriving DecidableEq

/-- One recorded invocation of `stage.reproduce`: which node, the `force`
flag it received, and whether it reported a change (returned a stage). -/
structure Visit where
  node : String
  force : Bool
  changed : Bool
deriving DecidableEq

/-- The side effects of a run, in order of occurrence: warnings logged for
locked stages, invocations of `stage.reproduce`, and stages persisted via
`stage.dump`. -/
structure Eff where
  warnings : List String
  visits : List Visit
  dumps : List String
deriving DecidableEq

/-- The empty effect log. -/
def Eff.empty : Eff := ⟨[], [], []⟩

/-- The external stage collaborators seen by the executor: the `stages`
node-attribute mapping (`locked` flag and `relpath` of each stage) and the
behaviour of `stage.reproduce`, which either raises, reports no change
(`None`), or returns a changed stage (identified by the string dumped for
it). -/
structure Env where
  locked : String → Bool
  relpath : String → String
  repro : String → Kw → Except PyErr (Option String)

/-- Embedding of `_reproduce_stage(stages, node, **kwargs)` (lines 13-29 of
`reproduce.py`): warn if the stage is locked, invoke its reproduction
either way, return `[]` when it reports no change, otherwise dump the
changed stage unless `dry` and return it as a singleton. -/
def reproduceStage (env : Env) (n : String) (kw : Kw) (eff : Eff) :
    Eff × Except PyErr (List String) :=
  let eff₁ := if env.locked n then
    { eff with warnings := eff.warnings ++ [env.relpath n] } else eff
  match env.repro n kw with
  | .error e =>
    ({ eff₁ with visits := eff₁.visits ++ [(⟨n, kw.force, false⟩ : Visit)] }, .error e)
  | .ok none =>
    ({ eff₁ with visits := eff₁.visits ++ [(⟨n, kw.force, false⟩ : Visit)] }, .ok [])
  | .ok (some s) =>
    let eff₂ := { eff₁ with visits := eff₁.visits ++ [(⟨n, kw.force, true⟩ : Visit)] }
    ({ eff₂ with dumps := if kw.dry then eff₂.dumps else eff₂.dumps ++ [s] }, .ok [s])

/-- Embedding of the evaluation loop of `_reproduce_stages` (lines 155-170
of `reproduce.py`): walk the pipeline in order; a failure is wrapped into
`ReproductionError(stages[n].relpath, ex)` and stops the walk; after a node
reports a change under `ignore_build_cache`, `kwargs["force"]` is set for
the remaining nodes of this walk. -/
def reproduceStagesGo (env : Env) (ibc : Bool) :
    List String → Kw → List String → Eff → Eff × Except PyErr (List String)
  | [], _, result, eff => (eff, .ok result)
  | n :: rest, kw, result, eff =>
    match reproduceStage env n kw eff with
    | (eff', .error ex) => (eff', .error (.reproductionError (env.relpath n) ex))
    | (eff', .ok ret) =>
      let kw' := if ret.length ≠ 0 ∧ ibc = true then { kw with force := true } else kw
      reproduceStagesGo env ibc rest kw' (result ++ ret) eff'

/-- Embedding of `_reproduce_stages(G, stages, node, downstream,
ignore_build_cache, **kwargs)` (lines 103-172): compute the pipeline order,
run the evaluation loop, and leave the graph exactly as the function leaves
it (the function never mutates `G`; downstream mode reverses a copy).  The
returned graph is the state of the caller's graph after the call. -/
def reproduceStages (env : Env) (G : Graph) (node : String)
    (downstream ibc : Bool) (kw : Kw) (eff : Eff) :
    Graph × Eff × Except PyErr (List String) :=
  (G, reproduceStagesGo env ibc (reproPipeline G node downstream) kw [] eff)

/-- The repository-level collaborators of `reproduce` and `_reproduce`:
`Stage.load` composed with `relpath` (mapping a target to its graph node,
possibly raising), the full stage graph `self.graph()[1]`, the stage
environment, the `core.interactive` config default, and the external pieces
used by target resolution: `os.path.isdir`, the postorder node list of the
directory-scoped graph (`nx.dfs_postorder_nodes(self.graph(from_directory=
target)[1])`, which runs over a whole graph with no source node),
`os.path.join(self.root_dir, ...)`, `self._get_pipeline` of a loaded
target, and `self.pipelines()`. -/
structure RepoEnv where
  env : Env
  graph : Graph
  loadNode : String → Except PyErr String
  configInteractive : Bool
  isDir : String → Bool
  dirPostorder : String → List String
  rootJoin : String → String
  getPipeline : String → Except PyErr Graph
  pipelines : List Graph

/-- Embedding of networkx `G.in_degree(node)`. -/
def inDegree (G : Graph) (n : String) : Nat :=
  (G.edges.filter (fun e => e.2 == n)).length

/-- The nodes of in-degree zero of a pipeline graph: stages with no
dependents, collected by lines 69-72 of `reproduce.py`. -/
def rootsOf (G : Graph) : List String :=
  G.nodes.filter (fun n => inDegree G n == 0)

/-- Embedding of `_reproduce(self, target, single_item, **kwargs)` (lines
86-100): resolve the target to a node; in single-item mode reproduce just
that stage (no graph walk, no error wrapping), otherwise run the graph
traversal. -/
def reproduceOne (renv : RepoEnv) (target : String)
    (singleItem downstream ibc : Bool) (kw : Kw) (eff : Eff) :
    Eff × Except PyErr (List String) :=
  match renv.loadNode target with
  | .error e => (eff, .error e)
  | .ok node =>
    if singleItem then reproduceStage renv.env node kw eff
    else (reproduceStages renv.env renv.graph node downstream ibc kw eff).2

/-- Embedding of the per-target loop of `reproduce` (lines 77-81): each
resolved target is reproduced with the caller's kwargs (each `_reproduce`
call receives a fresh unpacking of them) and the results are concatenated;
an exception propagates out of the loop at once. -/
def reproduceTargets (renv : RepoEnv) (targets : List String)
    (singleItem downstream ibc : Bool) (kw : Kw) (eff : Eff) :
    Eff × Except PyErr (List String) :=
  match targets with
  | [] => (eff, .ok [])
  | t :: rest =>
    match reproduceOne renv t singleItem downstream ibc kw eff with
    | (eff', .error e) => (eff', .error e)
    | (eff', .ok stages) =>
      match reproduceTargets renv rest singleItem downstream ibc kw eff' with
      | (eff'', .error e) => (eff'', .error e)
      | (eff'', .ok ret) => (eff'', .ok (stages ++ ret))

/-- Embedding of lines 47-53 of `reproduce.py`: the `interactive` value left
in `kwargs` after the config default is applied.  `kwargs.get("interactive",
False)` is truthy only when the caller passed `interactive=True`; in every
other case (absent or explicitly false) `kwargs["interactive"]` is set to
the `core.interactive` config value. -/
def resolveInteractive (caller : Option Bool) (cfg : Bool) : Bool :=
  if caller.getD false then caller.getD false else cfg

/-- Embedding of the target resolution of `reproduce` (lines 55-74 of
`reproduce.py`): a recursive directory target becomes the postorder node
list of the directory-scoped graph; pipeline / all-pipelines mode collects
the in-degree-zero nodes of the selected pipeline graphs; otherwise the
target itself is the single starting point. -/
def resolveTargets (renv : RepoEnv) (target : Option String)
    (recursive pipelineMode allPipelines : Bool) : Except PyErr (List String) :=
  if recursive = true ∧ renv.isDir (target.getD "") = true then
    .ok ((renv.dirPostorder (target.getD "")).map renv.rootJoin)
  else if pipelineMode = true ∨ allPipelines = true then
    match (if pipelineMode then (renv.getPipeline (target.getD "")).map (fun g => [g])
           else .ok renv.pipelines) with
    | .error e => .error e
    | .ok ps => .ok ((ps.map (fun g => (rootsOf g).map renv.rootJoin)).flatten)
  else .ok [target.getD ""]

/-- Embedding of the entry point `reproduce(self, target, recursive,
pipeline, all_pipelines, **kwargs)` (lines 31-83): first the `ValueError`
guard of lines 44-45 (before any graph or config is consulted), then the
interactive config default of lines 47-53, then target resolution, then the
per-target loop under the state lock. -/
def reproduce (renv : RepoEnv) (target : Option String)
    (recursive pipelineMode allPipelines : Bool)
    (singleItem downstream ibc : Bool) (kw : Kw) :
    Eff × Except PyErr (List String) :=
  if (target.getD "") = "" ∧ allPipelines = false then (Eff.empty, .error .valueError)
  else
    let kw' := { kw with
      interactive := some (resolveInteractive kw.interactive renv.configInteractive) }
    match resolveTargets renv target recursive pipelineMode allPipelines with
    | .error e => (Eff.empty, .error e)
    | .ok targets => reproduceTargets renv targets singleItem downstream ibc kw' Eff.empty

lemma dfsPostList_nil (G : Graph) (grey visited : List String) :
    dfsPostList G grey [] visited = visited := by
  rw [dfsPostList]

lemma dfsPostList_cons (G : Graph) (grey : List String) (u : String)
    (vs visited : List String) :
    dfsPostList G grey (u :: vs) visited =
      if u ∈ visited ∨ u ∈ grey ∨ u ∉ G.nodes then
        dfsPostList G grey vs visited
      else
        dfsPostList G grey vs (dfsPostList G (u :: grey) (succs G u) visited ++ [u]) := by
  rw [dfsPostList]
  simp

lemma dfsPreList_nil (G : Graph) (grey visited : List String) :
    dfsPreList G grey [] visited = visited := by
  rw [dfsPreList]

lemma dfsPreList_cons (G : Graph) (grey : List String) (u : String)
    (vs visited : List String) :
    dfsPreList G grey (u :: vs) visited =
      if u ∈ visited ∨ u ∈ grey ∨ u ∉ G.nodes then
        dfsPreList G grey vs visited
      else
        dfsPreList G grey vs (dfsPreList G (u :: grey) (succs G u) (visited ++ [u])) := by
  rw [dfsPreList]
  simp

lemma sublist_pair_append {α : Type} (l : List α) (d u : α) (hd : d ∈ l) :
    [d, u].Sublist (l ++ [u]) := by
  obtain ⟨s, t, rfl⟩ := List.append_of_mem hd
  have h1 : [d].Sublist (s ++ [d]) := List.sublist_append_right s [d]
  have h2 : [u].Sublist (t ++ [u]) := List.sublist_append_right t [u]
  have := h1.append h2
  simpa [List.append_assoc] using this

/-- Invariant lemma for the forward (postorder) traversal: under
well-formedness and acyclicity, the worklist DFS extends `visited` without
duplicates, visits every pending node, and keeps the output closed under
"every dependency appears strictly earlier".  `grey` carries the open DFS
path: every grey node reaches every pending node by a nonempty path. -/
lemma dfsPostList_spec (G : Graph) (hwf : WFgraph G) (hac : Acyclic G) :
    ∀ grey us visited : List String,
      visited.Nodup →
      (∀ x ∈ visited, x ∉ grey) →
      (∀ u d, edgeRel G u d → u ∈ visited → [d, u].Sublist visited) →
      (∀ g ∈ grey, ∀ w ∈ us, Relation.TransGen (edgeRel G) g w) →
      visited <+: dfsPostList G grey us visited ∧
      (∀ x ∈ dfsPostList G grey us visited, x ∈ visited ∨ (x ∈ G.nodes ∧ x ∉ grey)) ∧
      (dfsPostList G grey us visited).Nodup ∧
      (∀ v ∈ us, v ∈ dfsPostList G grey us visited ∨ v ∈ grey ∨ v ∉ G.nodes) ∧
      (∀ u d, edgeRel G u d → u ∈ dfsPostList G grey us visited →
        [d, u].Sublist (dfsPostList G grey us visited)) := by
  intro grey us visited
  induction grey, us, visited using dfsPostList.induct G with
  | case1 grey visited =>
    intro h1 _ h3 _
    rw [dfsPostList_nil]
    exact ⟨⟨[], List.append_nil _⟩, fun x hx => Or.inl hx, h1,
      fun v hv => absurd hv (List.not_mem_nil v), h3⟩
  | case2 grey visited u vs hguard ih =>
    intro h1 h2 h3 h4
    rw [dfsPostList_cons, if_pos hguard]
    have h4' : ∀ g ∈ grey, ∀ w ∈ vs, Relation.TransGen (edgeRel G) g w :=
      fun g hg w hw => h4 g hg w (List.mem_cons_of_mem _ hw)
    obtain ⟨A, B, C, D, E⟩ := ih h1 h2 h3 h4'
    refine ⟨A, B, C, ?_, E⟩
    intro v hv
    rcases List.mem_cons.mp hv with rfl | hv'
    · rcases hguard with hvv | hgg | hnn
      · exact Or.inl (A.subset hvv)
      · exact Or.inr (Or.inl hgg)
      · exact Or.inr (Or.inr hnn)
    · exact D v hv'
  | case3 grey visited u vs hguard ih1 ih2 =>
    intro h1 h2 h3 h4
    have hg' := hguard
    push_neg at hg'
    obtain ⟨hu_vis, hu_grey, hu_nodes⟩ := hg'
    rw [dfsPostList_cons, if_neg hguard]
    have inner_grey : ∀ x ∈ visited, x ∉ u :: grey := by
      intro x hx
      simp only [List.mem_cons, not_or]
      exact ⟨fun he => hu_vis (he ▸ hx), h2 x hx⟩
    have inner_h4 : ∀ g ∈ u :: grey, ∀ w ∈ succs G u, Relation.TransGen (edgeRel G) g w := by
      intro g hg w hw
      have hew : edgeRel G u w := (mem_succs_iff G u w).mp hw
      rcases List.mem_cons.mp hg with rfl | hg2
      · exact Relation.TransGen.single hew
      · exact Relation.TransGen.tail (h4 g hg2 u (List.mem_cons_self u vs)) hew
    obtain ⟨A1, B1, C1, D1, E1⟩ := ih1 h1 inner_grey h3 inner_h4
    set r₁ := dfsPostList G (u :: grey) (succs G u) visited with hr₁
    have hu_r1 : u ∉ r₁ := by
      intro hur
      rcases B1 u hur with h | ⟨_, hn⟩
      · exact hu_vis h
      · exact hn (List.mem_cons_self u grey)
    have nodup' : (r₁ ++ [u]).Nodup := by
      rw [List.nodup_append]
      refine ⟨C1, List.nodup_singleton u, ?_⟩
      intro x hx hx'
      rw [List.mem_singleton] at hx'
      exact hu_r1 (hx' ▸ hx)
    have grey' : ∀ x ∈ r₁ ++ [u], x ∉ grey := by
      intro x hx
      rcases List.mem_append.mp hx with hx1 | hx2
      · rcases B1 x hx1 with hv | ⟨_, hng⟩
        · exact h2 x hv
        · exact fun hg => hng (List.mem_cons_of_mem _ hg)
      · rw [List.mem_singleton] at hx2
        exact hx2 ▸ hu_grey
    have closure' : ∀ w d, edgeRel G w d → w ∈ r₁ ++ [u] → [d, w].Sublist (r₁ ++ [u]) := by
      intro w d hed hw
      rcases List.mem_append.mp hw with hw1 | hw2
      · exact (E1 w d hed hw1).trans (List.sublist_append_left r₁ [u])
      · rw [List.mem_singleton] at hw2
        rw [hw2] at hed ⊢
        have hd_succ : d ∈ succs G u := (mem_succs_iff G u d).mpr hed
        rcases D1 d hd_succ with hdr | hdg | hdn
        · exact sublist_pair_append r₁ d u hdr
        · rcases List.mem_cons.mp hdg with heq | hdg2
          · rw [heq] at hed
            exact absurd (Relation.TransGen.single hed) (hac u)
          · exact absurd
              (Relation.TransGen.trans (Relation.TransGen.single hed)
                (h4 d hdg2 u (List.mem_cons_self u vs)))
              (hac u)
        · exact absurd (hwf (u, d) hed).2 hdn
    have h4' : ∀ g ∈ grey, ∀ w ∈ vs, Relation.TransGen (edgeRel G) g w :=
      fun g hg w hw => h4 g hg w (List.mem_cons_of_mem _ hw)
    obtain ⟨A2, B2, C2, D2, E2⟩ := ih2 nodup' grey' closure' h4'
    refine ⟨?_, ?_, C2, ?_, E2⟩
    · exact (A1.trans ⟨[u], rfl⟩).trans A2
    · intro x hx
      rcases B2 x hx with hx' | hres
      · rcases List.mem_append.mp hx' with hx1 | hx2
        · rcases B1 x hx1 with h | ⟨hn, hg⟩
          · exact Or.inl h
          · exact Or.inr ⟨hn, fun hgg => hg (List.mem_cons_of_mem _ hgg)⟩
        · rw [List.mem_singleton] at hx2
          exact hx2 ▸ Or.inr ⟨hu_nodes, hu_grey⟩
      · exact Or.inr hres
    · intro v hv
      rcases List.mem_cons.mp hv with rfl | hv'
      · exact Or.inl (A2.subset (List.mem_append.mpr (Or.inr (List.mem_singleton.mpr rfl))))
      · exact D2 v hv'

/-- Invariant lemma for the downstream (preorder) traversal: the worklist
DFS extends `visited` without duplicates, and every node it appends has an
in-neighbour (a node it was discovered from) strictly earlier in the
output, provided every pending node already has a visited in-neighbour. -/
lemma dfsPreList_spec (G : Graph) :
    ∀ grey us visited : List String,
      visited.Nodup →
      (∀ u ∈ us, ∃ p ∈ visited, edgeRel G p u) →
      visited <+: dfsPreList G grey us visited ∧
      (dfsPreList G grey us visited).Nodup ∧
      (∀ x ∈ dfsPreList G grey us visited, x ∈ visited ∨
        ∃ p, edgeRel G p x ∧ [p, x].Sublist (dfsPreList G grey us visited)) := by
  intro grey us visited
  induction grey, us, visited using dfsPreList.induct G with
  | case1 grey visited =>
    intro h1 _
    rw [dfsPreList_nil]
    exact ⟨⟨[], List.append_nil _⟩, h1, fun x hx => Or.inl hx⟩
  | case2 grey visited u vs hguard ih =>
    intro h1 h0
    rw [dfsPreList_cons, if_pos hguard]
    exact ih h1 (fun w hw => h0 w (List.mem_cons_of_mem _ hw))
  | case3 grey visited u vs hguard ih1 ih2 =>
    intro h1 h0
    have hg' := hguard
    push_neg at hg'
    obtain ⟨hu_vis, _, _⟩ := hg'
    rw [dfsPreList_cons, if_neg hguard]
    have nodup' : (visited ++ [u]).Nodup := by
      rw [List.nodup_append]
      refine ⟨h1, List.nodup_singleton u, ?_⟩
      intro x hx hx'
      rw [List.mem_singleton] at hx'
      exact hu_vis (hx' ▸ hx)
    have h0' : ∀ v ∈ succs G u, ∃ p ∈ visited ++ [u], edgeRel G p v := by
      intro v hv
      exact ⟨u, List.mem_append.mpr (Or.inr (List.mem_singleton.mpr rfl)),
        (mem_succs_iff G u v).mp hv⟩
    obtain ⟨A1, C1, P1⟩ := ih1 nodup' h0'
    set r₁ := dfsPreList G (u :: grey) (succs G u) (visited ++ [u]) with hr₁
    have hstep : visited <+: visited ++ [u] := ⟨[u], rfl⟩
    have hsub : visited <+: r₁ := hstep.trans A1
    have h0'' : ∀ w ∈ vs, ∃ p ∈ r₁, edgeRel G p w := by
      intro w hw
      obtain ⟨p, hp, hpe⟩ := h0 w (List.mem_cons_of_mem _ hw)
      exact ⟨p, hsub.subset hp, hpe⟩
    obtain ⟨A2, C2, P2⟩ := ih2 C1 h0''
    refine ⟨hsub.trans A2, C2, ?_⟩
    intro x hx
    rcases P2 x hx with hx1 | hx2
    · rcases P1 x hx1 with hxv | ⟨p, hpe, hps⟩
      · rcases List.mem_append.mp hxv with hv | hu
        · exact Or.inl hv
        · rw [List.mem_singleton] at hu
          obtain ⟨p, hp, hpe⟩ := h0 u (List.mem_cons_self u vs)
          refine Or.inr ⟨p, hu ▸ hpe, ?_⟩
          have base : [p, u].Sublist (visited ++ [u]) := sublist_pair_append visited p u hp
          exact hu ▸ ((base.trans A1.sublist).trans A2.sublist)
      · exact Or.inr ⟨p, hpe, hps.trans A2.sublist⟩
    · exact Or.inr hx2

/-- A rank function decreasing along every edge certifies acyclicity. -/
lemma acyclic_of_rank (G : Graph) (rank : String → Nat)
    (h : ∀ e ∈ G.edges, rank e.2 < rank e.1) : Acyclic G := by
  intro n hcyc
  have key : ∀ a b : String, Relation.TransGen (edgeRel G) a b → rank b < rank a := by
    intro a b hab
    induction hab with
    | single he => exact h _ he
    | tail _ he ih => exact lt_trans (h _ he) ih
  exact absurd (key n n hcyc) (lt_irrefl _)

lemma reverse_copy_nodes (G : Graph) : (reverseGraph (copyGraph G)).nodes = G.nodes := rfl

lemma edgeRel_reverse_copy (G : Graph) (p x : String) :
    edgeRel (reverseGraph (copyGraph G)) p x ↔ edgeRel G x p := by
  simp only [edgeRel, reverseGraph, copyGraph, List.mem_map]
  constructor
  · rintro ⟨⟨a, b⟩, he, heq⟩
    simp only [Prod.mk.injEq] at heq
    obtain ⟨rfl, rfl⟩ := heq
    exact he
  · intro h
    exact ⟨(x, p), h, rfl⟩

lemma dfsPost_eq (G : Graph) (start : String) (hs : start ∈ G.nodes) :
    dfsPost G start = dfsPostList G [start] (succs G start) [] ++ [start] := by
  rw [dfsPost, dfsPostList_cons, if_neg (by simp [hs]), dfsPostList_nil]

lemma dfsPre_eq (G : Graph) (start : String) (hs : start ∈ G.nodes) :
    dfsPre G start = dfsPreList G [start] (succs G start) [start] := by
  rw [dfsPre, dfsPreList_cons, if_neg (by simp [hs]), dfsPreList_nil, List.nil_append]

/-- C1: with `downstream=false`, `_reproduce_stages` walks a postorder
depth-first traversal of the graph from the starting node: no node is
visited twice, every dependency of a visited node is visited strictly
before that node, the starting node is visited last, and for the linear
chain where C depends on B and B depends on A the order from C is
[A, B, C]. -/
theorem C1_forward_postorder (G : Graph) (start : String)
    (hwf : WFgraph G) (hac : Acyclic G) (hs : start ∈ G.nodes) :
    (reproPipeline G start false).Nodup ∧
    (∀ u d, edgeRel G u d → u ∈ reproPipeline G start false →
      [d, u].Sublist (reproPipeline G start false)) ∧
    (reproPipeline G start false).getLast? = some start ∧
    start ∈ reproPipeline G start false ∧
    reproPipeline chainG "C" false = ["A", "B", "C"] := by
  have e0 : reproPipeline G start false = dfsPostList G [] [start] [] := by
    simp [reproPipeline, dfsPost]
  obtain ⟨A, B, C, D, E⟩ := dfsPostList_spec G hwf hac [] [start] []
    List.nodup_nil (by simp) (by simp) (by simp)
  rw [e0]
  refine ⟨C, E, ?_, ?_, ?_⟩
  · have e1 : dfsPostList G [] [start] [] =
        dfsPostList G [start] (succs G start) [] ++ [start] := by
      rw [dfsPostList_cons, if_neg (by simp [hs]), dfsPostList_nil]
    rw [e1]
    exact List.getLast?_concat _
  · rcases D start (List.mem_singleton.mpr rfl) with h | h | h
    · exact h
    · exact absurd h (List.not_mem_nil start)
    · exact absurd hs h
  · simp [reproPipeline, dfsPost, dfsPostList, succs, chainG]

/-- Witness for C1 at the linear chain, starting node C. -/
theorem C1_forward_postorder_witness :
    (reproPipeline chainG "C" false).Nodup ∧
    (∀ u d, edgeRel chainG u d → u ∈ reproPipeline chainG "C" false →
      [d, u].Sublist (reproPipeline chainG "C" false)) ∧
    (reproPipeline chainG "C" false).getLast? = some "C" ∧
    "C" ∈ reproPipeline chainG "C" false ∧
    reproPipeline chainG "C" false = ["A", "B", "C"] :=
  C1_forward_postorder chainG "C" (by decide)
    (acyclic_of_rank chainG
      (fun s => if s = "A" then 0 else if s = "B" then 1 else 2) (by decide))
    (by decide)

/-- C2 counterexample: in the diamond where D depends on B and on C and both
depend on A, the downstream walk from A visits D before its dependency C,
so a node's dependent is visited before that node. -/
theorem C2_counterexample :
    reproPipeline diamondG "A" true = ["A", "B", "D", "C"] ∧
    edgeRel diamondG "D" "C" ∧
    ¬ ["C", "D"].Sublist (reproPipeline diamondG "A" true) := by
  have h : reproPipeline diamondG "A" true = ["A", "B", "D", "C"] := by
    simp [reproPipeline, dfsPre, dfsPreList, succs, diamondG, reverseGraph, copyGraph]
  refine ⟨h, by decide, ?_⟩
  rw [h]
  decide

/-- C2 (amended): with `downstream=true`, `_reproduce_stages` walks a
preorder depth-first traversal of the edge-reversed copy of the graph: the
starting node is visited first, no node is visited twice, every other
visited node has at least one of its dependencies visited strictly before
it, and for the linear chain where C depends on B and B depends on A the
downstream order from A is [A, B, C].  (A node's dependents are not in
general all visited after it, see the counterexample.) -/
theorem C2_downstream_preorder (G : Graph) (start : String) (hs : start ∈ G.nodes) :
    (reproPipeline G start true).head? = some start ∧
    (reproPipeline G start true).Nodup ∧
    (∀ x ∈ reproPipeline G start true, x = start ∨
      ∃ p, edgeRel G x p ∧ [p, x].Sublist (reproPipeline G start true)) ∧
    reproPipeline chainG "A" true = ["A", "B", "C"] := by
  have hsH : start ∈ (reverseGraph (copyGraph G)).nodes := by
    rw [reverse_copy_nodes]; exact hs
  have e0 : reproPipeline G start true =
      dfsPreList (reverseGraph (copyGraph G)) [start]
        (succs (reverseGraph (copyGraph G)) start) [start] := by
    simp only [reproPipeline, if_true]
    exact dfsPre_eq (reverseGraph (copyGraph G)) start hsH
  obtain ⟨A1, C1, P1⟩ := dfsPreList_spec (reverseGraph (copyGraph G)) [start]
    (succs (reverseGraph (copyGraph G)) start) [start]
    (List.nodup_singleton start)
    (fun v hv => ⟨start, List.mem_singleton.mpr rfl,
      (mem_succs_iff (reverseGraph (copyGraph G)) start v).mp hv⟩)
  rw [e0]
  refine ⟨?_, C1, ?_, ?_⟩
  · obtain ⟨t, ht⟩ := A1
    rw [← ht]
    simp
  · intro x hx
    rcases P1 x hx with hxv | ⟨p, hpe, hps⟩
    · exact Or.inl (List.mem_singleton.mp hxv)
    · exact Or.inr ⟨p, (edgeRel_reverse_copy G p x).mp hpe, hps⟩
  · simp [reproPipeline, dfsPre, dfsPreList, succs, chainG, reverseGraph, copyGraph]

/-- Witness for C2 (amended) at the linear chain, starting node A. -/
theorem C2_downstream_preorder_witness :
    (reproPipeline chainG "A" true).head? = some "A" ∧
    (reproPipeline chainG "A" true).Nodup ∧
    (∀ x ∈ reproPipeline chainG "A" true, x = "A" ∨
      ∃ p, edgeRel chainG x p ∧ [p, x].Sublist (reproPipeline chainG "A" true)) ∧
    reproPipeline chainG "A" true = ["A", "B", "C"] :=
  C2_downstream_preorder chainG "A" (by decide)

lemma reproduceStagesGo_nil (env : Env) (ibc : Bool) (kw : Kw)
    (res : List String) (eff : Eff) :
    reproduceStagesGo env ibc [] kw res eff = (eff, .ok res) := by
  simp [reproduceStagesGo]

lemma reproduceStagesGo_cons (env : Env) (ibc : Bool) (n : String)
    (rest : List String) (kw : Kw) (res : List String) (eff : Eff) :
    reproduceStagesGo env ibc (n :: rest) kw res eff =
      match reproduceStage env n kw eff with
      | (eff', .error ex) => (eff', .error (.reproductionError (env.relpath n) ex))
      | (eff', .ok ret) =>
        reproduceStagesGo env ibc rest
          (if ret.length ≠ 0 ∧ ibc = true then { kw with force := true } else kw)
          (res ++ ret) eff' := by
  simp only [reproduceStagesGo]

/-- The visit `_reproduce_stage` records: the node, the force flag passed to
`stage.reproduce`, and whether a change was reported. -/
lemma reproduceStage_visits (env : Env) (n : String) (kw : Kw) (eff : Eff) :
    (reproduceStage env n kw eff).1.visits =
      eff.visits ++ [⟨n, kw.force,
        match env.repro n kw with
        | .ok (some _) => true
        | _ => false⟩] := by
  rcases h : env.repro n kw with e | o
  · by_cases hl : env.locked n <;> simp [reproduceStage, h, hl]
  · rcases o with _ | s <;> by_cases hl : env.locked n <;> simp [reproduceStage, h, hl]

lemma reproduceStage_result (env : Env) (n : String) (kw : Kw) (eff : Eff) :
    (reproduceStage env n kw eff).2 =
      match env.repro n kw with
      | .error e => .error e
      | .ok none => .ok []
      | .ok (some s) => .ok [s] := by
  rcases h : env.repro n kw with e | o
  · by_cases hl : env.locked n <;> simp [reproduceStage, h, hl]
  · rcases o with _ | s <;> by_cases hl : env.locked n <;> simp [reproduceStage, h, hl]

lemma reproduceStage_dumps (env : Env) (n : String) (kw : Kw) (eff : Eff) :
    (reproduceStage env n kw eff).1.dumps =
      match env.repro n kw with
      | .ok (some s) => if kw.dry then eff.dumps else eff.dumps ++ [s]
      | _ => eff.dumps := by
  rcases h : env.repro n kw with e | o
  · by_cases hl : env.locked n <;> simp [reproduceStage, h, hl]
  · rcases o with _ | s <;> by_cases hl : env.locked n <;> simp [reproduceStage, h, hl]

/-- Force-flag invariant of the `_reproduce_stages` loop: the visits it adds
start at the caller's `force` value, the flag never drops back from true,
and under `ignore_build_cache` every visit after a changed one carries
`force=true`. -/
lemma reproduceStagesGo_force_inv (env : Env) (ibc : Bool) :
    ∀ (pipeline : List String) (kw : Kw) (res : List String) (eff : Eff),
      ∃ nv : List Visit,
        (reproduceStagesGo env ibc pipeline kw res eff).1.visits = eff.visits ++ nv ∧
        (∀ v ∈ nv.head?, v.force = kw.force) ∧
        (∀ v ∈ nv, kw.force = true → v.force = true) ∧
        List.Pairwise (fun a b => (a.force = true → b.force = true) ∧
          (ibc = true → a.changed = true → b.force = true)) nv := by
  intro pipeline
  induction pipeline with
  | nil =>
    intro kw res eff
    exact ⟨[], by simp [reproduceStagesGo_nil], by simp, by simp, List.Pairwise.nil⟩
  | cons n rest ih =>
    intro kw res eff
    rw [reproduceStagesGo_cons]
    rcases hstage : reproduceStage env n kw eff with ⟨eff', r⟩
    have hv := reproduceStage_visits env n kw eff
    rw [hstage] at hv
    have hr := reproduceStage_result env n kw eff
    rw [hstage] at hr
    rcases hrep : env.repro n kw with e | o
    · rw [hrep] at hv hr
      simp only at hv hr
      subst hr
      refine ⟨[⟨n, kw.force, false⟩], by simp [hv], by simp, by simp, ?_⟩
      exact List.pairwise_singleton _ _
    · rcases o with _ | s
      · rw [hrep] at hv hr
        simp only at hv hr
        subst hr
        dsimp only
        rw [if_neg (by simp)]
        obtain ⟨nv', hvis', hhead', hmono', hpair'⟩ := ih kw (res ++ []) eff'
        refine ⟨⟨n, kw.force, false⟩ :: nv', ?_, by simp, ?_, ?_⟩
        · rw [hvis', hv]
          simp
        · intro v hvmem hforce
          rcases List.mem_cons.mp hvmem with rfl | hvmem'
          · exact hforce
          · exact hmono' v hvmem' hforce
        · rw [List.pairwise_cons]
          refine ⟨?_, hpair'⟩
          intro b hb
          constructor
          · intro hf
            exact hmono' b hb hf
          · intro _ hch
            simp at hch
      · rw [hrep] at hv hr
        simp only at hv hr
        subst hr
        dsimp only
        by_cases hibc : ibc = true
        · rw [if_pos ⟨by simp, hibc⟩]
          obtain ⟨nv', hvis', hhead', hmono', hpair'⟩ :=
            ih { kw with force := true } (res ++ [s]) eff'
          have hall : ∀ v ∈ nv', v.force = true := by
            intro v hvm
            exact hmono' v hvm rfl
          refine ⟨⟨n, kw.force, true⟩ :: nv', ?_, by simp, ?_, ?_⟩
          · rw [hvis', hv]
            simp
          · intro v hvmem hforce
            rcases List.mem_cons.mp hvmem with rfl | hvmem'
            · exact hforce
            · exact hall v hvmem'
          · rw [List.pairwise_cons]
            refine ⟨?_, hpair'⟩
            intro b hb
            exact ⟨fun _ => hall b hb, fun _ _ => hall b hb⟩
        · rw [if_neg (fun hands => hibc hands.2)]
          obtain ⟨nv', hvis', hhead', hmono', hpair'⟩ := ih kw (res ++ [s]) eff'
          refine ⟨⟨n, kw.force, true⟩ :: nv', ?_, by simp, ?_, ?_⟩
          · rw [hvis', hv]
            simp
          · intro v hvmem hforce
            rcases List.mem_cons.mp hvmem with rfl | hvmem'
            · exact hforce
            · exact hmono' v hvmem' hforce
          · rw [List.pairwise_cons]
            refine ⟨?_, hpair'⟩
            intro b hb
            constructor
            · intro hf
              exact hmono' b hb hf
            · intro hcontra
              exact absurd hcontra hibc

lemma reproduceStage_dumps_mono (env : Env) (n : String) (kw : Kw) (eff : Eff) :
    eff.dumps <+: (reproduceStage env n kw eff).1.dumps := by
  rw [reproduceStage_dumps]
  rcases h : env.repro n kw with e | o
  · exact ⟨[], List.append_nil _⟩
  · rcases o with _ | s
    · exact ⟨[], List.append_nil _⟩
    · dsimp only
      by_cases hd : kw.dry
      · rw [if_pos hd]
      · rw [if_neg hd]
        exact ⟨[s], rfl⟩

/-- An environment whose every stage reports a change; stage relpaths are
the node names themselves. -/
def env1 : Env := ⟨fun _ => false, fun n => n, fun n _ => .ok (some n)⟩

/-- C3 counterexample: with caller kwargs `force=false` and
`ignore_build_cache=true`, the first node's reproduction is invoked with
`force=false`, not with the `ignore_build_cache` value: the force flag is
initialised from the caller's `force` keyword, not from
`ignore_build_cache`. -/
theorem C3_counterexample :
    (reproduceStagesGo env1 true ["A"] ⟨false, false, none⟩ [] Eff.empty).1.visits
      = [⟨"A", false, true⟩] ∧ (false : Bool) ≠ (true : Bool) := by
  exact ⟨by decide, by decide⟩

/-- C3 (amended): within one `_reproduce_stages` traversal the force flag
is scoped to the traversal's own kwargs dict, starts out as the
caller-supplied `force` value, becomes true for all subsequently visited
nodes as soon as a node's reproduction reports a change while
`ignore_build_cache` is set, and once true is never reset. -/
theorem C3_force_cascade (env : Env) (ibc : Bool) (pipeline : List String) (kw : Kw) :
    (∀ v ∈ (reproduceStagesGo env ibc pipeline kw [] Eff.empty).1.visits.head?,
      v.force = kw.force) ∧
    List.Pairwise (fun a b => (a.force = true → b.force = true) ∧
      (ibc = true → a.changed = true → b.force = true))
      (reproduceStagesGo env ibc pipeline kw [] Eff.empty).1.visits := by
  obtain ⟨nv, hvis, hhead, _, hpair⟩ :=
    reproduceStagesGo_force_inv env ibc pipeline kw [] Eff.empty
  have he : (Eff.empty).visits = [] := rfl
  rw [hvis, he, List.nil_append]
  exact ⟨hhead, hpair⟩

/-- Witness for C3 (amended) on a two-node pipeline with changing stages. -/
theorem C3_force_cascade_witness :
    (∀ v ∈ (reproduceStagesGo env1 true ["A", "B"] ⟨false, false, none⟩ []
      Eff.empty).1.visits.head?, v.force = (⟨false, false, none⟩ : Kw).force) ∧
    List.Pairwise (fun a b => (a.force = true → b.force = true) ∧
      (true = true → a.changed = true → b.force = true))
      (reproduceStagesGo env1 true ["A", "B"] ⟨false, false, none⟩ []
        Eff.empty).1.visits :=
  C3_force_cascade env1 true ["A", "B"] ⟨false, false, none⟩

/-- C4: if reproducing a node of the pipeline raises, `_reproduce_stages`
surfaces a `ReproductionError` carrying that node's relpath and the original
exception as cause, visits no later node (the visit trace is exactly the
pipeline up to and including the failing node), and the dumps recorded
before the failure are retained, not rolled back. -/
theorem C4_error_abort (env : Env) (ibc : Bool) :
    ∀ (pipeline : List String) (kw : Kw) (res : List String) (eff eff' : Eff)
      (e : PyErr),
      reproduceStagesGo env ibc pipeline kw res eff = (eff', .error e) →
      ∃ i, ∃ hi : i < pipeline.length, ∃ cause kwi,
        e = .reproductionError (env.relpath (pipeline.get ⟨i, hi⟩)) cause ∧
        env.repro (pipeline.get ⟨i, hi⟩) kwi = .error cause ∧
        eff'.visits.map Visit.node = eff.visits.map Visit.node ++ pipeline.take (i + 1) ∧
        eff.dumps <+: eff'.dumps := by
  intro pipeline
  induction pipeline with
  | nil =>
    intro kw res eff eff' e h
    rw [reproduceStagesGo_nil] at h
    simp at h
  | cons n rest ih =>
    intro kw res eff eff' e h
    rw [reproduceStagesGo_cons] at h
    rcases hstage : reproduceStage env n kw eff with ⟨eff₁, r⟩
    rw [hstage] at h
    have hv := reproduceStage_visits env n kw eff
    rw [hstage] at hv
    have hd := reproduceStage_dumps_mono env n kw eff
    rw [hstage] at hd
    have hr := reproduceStage_result env n kw eff
    rw [hstage] at hr
    dsimp only at hv hd hr
    rcases r with ex | ret
    · dsimp only at h
      injection h with heff herr
      injection herr with herr
      subst heff
      subst herr
      rcases hrep : env.repro n kw with e0 | o0
      · rw [hrep] at hr hv
        dsimp only at hr hv
        injection hr with hx
        refine ⟨0, by simp, ex, kw, rfl, ?_, ?_, hd⟩
        · rw [hx]
          exact hrep
        · rw [hv]
          simp
      · rw [hrep] at hr
        rcases o0 with _ | s <;> simp at hr
    · dsimp only at h
      obtain ⟨i, hi, cause, kwi, he, hrepi, hvis, hdump⟩ := ih _ _ _ _ _ h
      refine ⟨i + 1, by simpa using Nat.succ_lt_succ hi, cause, kwi, he, hrepi, ?_,
        hd.trans hdump⟩
      rw [hvis, hv]
      simp

/-- An environment where stage B fails and every other stage changes. -/
def envFail : Env :=
  ⟨fun _ => false, fun n => n,
    fun n _ => if n = "B" then .error (.other "boom") else .ok (some n)⟩

/-- Witness for C4: on pipeline [A, B, C] where B raises, the error names B
and carries the original cause, only A and B are visited, and A's dump is
retained. -/
theorem C4_error_abort_witness :
    ∃ i, ∃ hi : i < (["A", "B", "C"] : List String).length, ∃ cause kwi,
      PyErr.reproductionError "B" (.other "boom") =
        .reproductionError (envFail.relpath ((["A", "B", "C"] : List String).get ⟨i, hi⟩))
          cause ∧
      envFail.repro ((["A", "B", "C"] : List String).get ⟨i, hi⟩) kwi = .error cause ∧
      (⟨[], [⟨"A", false, true⟩, ⟨"B", false, false⟩], ["A"]⟩ : Eff).visits.map
          Visit.node =
        (Eff.empty).visits.map Visit.node ++ (["A", "B", "C"] : List String).take (i + 1) ∧
      (Eff.empty).dumps <+:
        (⟨[], [⟨"A", false, true⟩, ⟨"B", false, false⟩], ["A"]⟩ : Eff).dumps :=
  C4_error_abort envFail false ["A", "B", "C"] ⟨false, false, none⟩ [] Eff.empty
    ⟨[], [⟨"A", false, true⟩, ⟨"B", false, false⟩], ["A"]⟩
    (.reproductionError "B" (.other "boom")) (by rfl)

/-- C5 (amended): a failure inside one starting point's traversal
propagates out of the per-target loop of `reproduce` unchanged: the loop
returns that error and the effect log of the failed traversal, so the
remaining starting points are never attempted (the result does not depend
on them at all). -/
theorem C5_abort_remaining (renv : RepoEnv) (t : String) (rest : List String)
    (si ds ibc : Bool) (kw : Kw) (eff eff' : Eff) (e : PyErr)
    (h : reproduceOne renv t si ds ibc kw eff = (eff', .error e)) :
    reproduceTargets renv (t :: rest) si ds ibc kw eff = (eff', .error e) := by
  simp only [reproduceTargets]
  rw [h]

/-- An environment where stage T1 fails and every other stage changes. -/
def envC5 : Env :=
  ⟨fun _ => false, fun n => n,
    fun n _ => if n = "T1" then .error (.other "boom") else .ok (some n)⟩

/-- The repository for the C5 counterexample: two independent single-stage
targets T1 and T2, T1 failing. -/
def renvC5 : RepoEnv :=
  { env := envC5, graph := ⟨["T1", "T2"], []⟩, loadNode := fun t => .ok t,
    configInteractive := false, isDir := fun _ => false,
    dirPostorder := fun _ => [], rootJoin := id,
    getPipeline := fun _ => .ok ⟨[], []⟩, pipelines := [] }

/-- C5 counterexample: with resolved starting points [T1, T2] and T1's
traversal failing, the loop surfaces T1's error and T2 is never attempted
(no reproduction of T2 is ever invoked). -/
theorem C5_counterexample :
    (reproduceTargets renvC5 ["T1", "T2"] false false false ⟨false, false, none⟩
      Eff.empty).2 = .error (.reproductionError "T1" (.other "boom")) ∧
    (reproduceTargets renvC5 ["T1", "T2"] false false false ⟨false, false, none⟩
      Eff.empty).1.visits.map Visit.node = ["T1"] := by
  have hrun : reproduceTargets renvC5 ["T1", "T2"] false false false
      ⟨false, false, none⟩ Eff.empty =
      (⟨[], [⟨"T1", false, false⟩], []⟩,
        .error (.reproductionError "T1" (.other "boom"))) := by
    have hpipe : reproPipeline (⟨["T1", "T2"], []⟩ : Graph) "T1" false = ["T1"] := by
      simp [reproPipeline, dfsPost, dfsPostList, succs]
    simp only [reproduceTargets, reproduceOne, reproduceStages, renvC5]
    rw [hpipe]
    rfl
  rw [hrun]
  exact ⟨rfl, rfl⟩

/-- Witness for C5 (amended), instantiated on a failing single-item target. -/
theorem C5_abort_remaining_witness :
    reproduceTargets renvC5 ["T1", "T2"] true false false ⟨false, false, none⟩
      Eff.empty =
      (⟨[], [⟨"T1", false, false⟩], []⟩, .error (.other "boom")) :=
  C5_abort_remaining renvC5 "T1" ["T2"] true false false ⟨false, false, none⟩
    Eff.empty ⟨[], [⟨"T1", false, false⟩], []⟩ (.other "boom") (by rfl)

lemma reproduceStage_warnings (env : Env) (n : String) (kw : Kw) (eff : Eff) :
    (reproduceStage env n kw eff).1.warnings =
      if env.locked n then eff.warnings ++ [env.relpath n] else eff.warnings := by
  rcases h : env.repro n kw with e | o
  · by_cases hl : env.locked n <;> simp [reproduceStage, h, hl]
  · rcases o with _ | s <;> by_cases hl : env.locked n <;> simp [reproduceStage, h, hl]

/-- C6: for every node `_reproduce_stage` processes: a locked stage emits a
warning but its reproduction is still invoked (reproduction is invoked for
every node, locked or not); a reproduction reporting no change contributes
nothing to the result and dumps nothing; a reproduction returning an
updated stage is appended to the result and dumped exactly when dry mode is
off; dry mode never dumps. -/
theorem C6_stage_execution (env : Env) (n : String) (kw : Kw) (eff : Eff) :
    (env.locked n = true →
      (reproduceStage env n kw eff).1.warnings = eff.warnings ++ [env.relpath n]) ∧
    (env.locked n = false →
      (reproduceStage env n kw eff).1.warnings = eff.warnings) ∧
    (reproduceStage env n kw eff).1.visits.map Visit.node =
      eff.visits.map Visit.node ++ [n] ∧
    (env.repro n kw = .ok none →
      (reproduceStage env n kw eff).2 = .ok [] ∧
      (reproduceStage env n kw eff).1.dumps = eff.dumps) ∧
    (∀ s, env.repro n kw = .ok (some s) →
      (reproduceStage env n kw eff).2 = .ok [s] ∧
      (reproduceStage env n kw eff).1.dumps =
        (if kw.dry then eff.dumps else eff.dumps ++ [s])) ∧
    (kw.dry = true → (reproduceStage env n kw eff).1.dumps = eff.dumps) := by
  refine ⟨?_, ?_, ?_, ?_, ?_, ?_⟩
  · intro hl
    rw [reproduceStage_warnings, if_pos hl]
  · intro hl
    rw [reproduceStage_warnings, if_neg (by simp [hl])]
  · rw [reproduceStage_visits]
    simp
  · intro h
    constructor
    · rw [reproduceStage_result, h]
    · rw [reproduceStage_dumps, h]
  · intro s h
    constructor
    · rw [reproduceStage_result, h]
    · rw [reproduceStage_dumps, h]
  · intro hdry
    rw [reproduceStage_dumps]
    rcases h : env.repro n kw with e | o
    · rfl
    · rcases o with _ | s
      · rfl
      · dsimp only
        rw [if_pos hdry]

/-- A locked, always-changing stage environment for the C6 witness. -/
def envC6 : Env := ⟨fun _ => true, fun n => n, fun n _ => .ok (some n)⟩

/-- Witness for C6 at a locked stage that reports a change. -/
theorem C6_stage_execution_witness :
    (envC6.locked "A" = true →
      (reproduceStage envC6 "A" ⟨false, false, none⟩ Eff.empty).1.warnings =
        (Eff.empty).warnings ++ [envC6.relpath "A"]) ∧
    (envC6.locked "A" = false →
      (reproduceStage envC6 "A" ⟨false, false, none⟩ Eff.empty).1.warnings =
        (Eff.empty).warnings) ∧
    (reproduceStage envC6 "A" ⟨false, false, none⟩ Eff.empty).1.visits.map Visit.node =
      (Eff.empty).visits.map Visit.node ++ ["A"] ∧
    (envC6.repro "A" ⟨false, false, none⟩ = .ok none →
      (reproduceStage envC6 "A" ⟨false, false, none⟩ Eff.empty).2 = .ok [] ∧
      (reproduceStage envC6 "A" ⟨false, false, none⟩ Eff.empty).1.dumps =
        (Eff.empty).dumps) ∧
    (∀ s, envC6.repro "A" ⟨false, false, none⟩ = .ok (some s) →
      (reproduceStage envC6 "A" ⟨false, false, none⟩ Eff.empty).2 = .ok [s] ∧
      (reproduceStage envC6 "A" ⟨false, false, none⟩ Eff.empty).1.dumps =
        (if (⟨false, false, none⟩ : Kw).dry then (Eff.empty).dumps
         else (Eff.empty).dumps ++ [s])) ∧
    ((⟨false, false, none⟩ : Kw).dry = true →
      (reproduceStage envC6 "A" ⟨false, false, none⟩ Eff.empty).1.dumps =
        (Eff.empty).dumps) :=
  C6_stage_execution envC6 "A" ⟨false, false, none⟩ Eff.empty

/-- C7: running `_reproduce_stages` with `downstream=true` leaves the
caller's graph untouched: after the call the graph has exactly its original
nodes and edges; the traversal order is computed from a reversed copy,
which has the same nodes and every edge flipped. -/
theorem C7_graph_untouched (env : Env) (G : Graph) (node : String) (ibc : Bool)
    (kw : Kw) (eff : Eff) :
    (reproduceStages env G node true ibc kw eff).1.nodes = G.nodes ∧
    (reproduceStages env G node true ibc kw eff).1.edges = G.edges ∧
    (reverseGraph (copyGraph G)).nodes = G.nodes ∧
    (reverseGraph (copyGraph G)).edges = G.edges.map (fun e => (e.2, e.1)) ∧
    (reproduceStages env G node true ibc kw eff).2 =
      reproduceStagesGo env ibc (dfsPre (reverseGraph (copyGraph G)) node) kw [] eff := by
  refine ⟨rfl, rfl, rfl, rfl, ?_⟩
  simp [reproduceStages, reproPipeline]

/-- C8: calling `reproduce` with no target while not in all-pipelines mode
fails immediately with the bare `ValueError` of line 45: for every
repository environment (so no graph is consulted), the result is the error
with an empty effect log (no traversal, no reproduction, no dump). -/
theorem C8_invalid_target (renv : RepoEnv) (target : Option String)
    (recursive pipelineMode si ds ibc : Bool) (kw : Kw)
    (h : (target.getD "") = "") :
    reproduce renv target recursive pipelineMode false si ds ibc kw =
      (Eff.empty, .error .valueError) := by
  simp only [reproduce]
  rw [if_pos ⟨h, trivial⟩]

/-- Witness for C8 with no target. -/
theorem C8_invalid_target_witness :
    reproduce renvC5 none false false false false false false ⟨false, false, none⟩ =
      (Eff.empty, .error .valueError) :=
  C8_invalid_target renvC5 none false false false false false ⟨false, false, none⟩ rfl

/-- An environment whose stages report, through the returned stage name,
the `interactive` value their reproduction actually received. -/
def envC9 : Env :=
  ⟨fun _ => false, fun n => n,
    fun _ kw => .ok (some (if kw.interactive = some true then "GOT_TRUE" else "GOT_FALSE"))⟩

/-- The repository for the C9 counterexample: config `interactive=true`. -/
def renvC9 : RepoEnv :=
  { env := envC9, graph := ⟨[], []⟩, loadNode := fun t => .ok t,
    configInteractive := true, isDir := fun _ => false,
    dirPostorder := fun _ => [], rootJoin := id,
    getPipeline := fun _ => .ok ⟨[], []⟩, pipelines := [] }

/-- C9 counterexample: the caller explicitly passes `interactive=False`,
the config default is `interactive=true`, and the stage's reproduction
runs with `interactive=true` — the explicitly supplied false is overridden
by the config default, because the code only checks truthiness of
`kwargs.get("interactive", False)`. -/
theorem C9_counterexample :
    (reproduce renvC9 (some "T") false false false true false false
      ⟨false, false, some false⟩).2 = .ok ["GOT_TRUE"] ∧
    resolveInteractive (some false) true = true := by
  exact ⟨rfl, rfl⟩

/-- C9 (amended): the config default for `interactive` is applied whenever
the caller-supplied value is absent or explicitly false; only an explicit
`interactive=true` is passed through unchanged.  Equivalently, the value
reproduction runs with is the disjunction of the caller's value (absent
read as false) and the config default. -/
theorem C9_interactive_default (cfg : Bool) (caller : Option Bool) :
    resolveInteractive none cfg = cfg ∧
    resolveInteractive (some true) cfg = true ∧
    resolveInteractive (some false) cfg = cfg ∧
    resolveInteractive caller cfg = (caller.getD false || cfg) := by
  refine ⟨rfl, rfl, rfl, ?_⟩
  rcases caller with _ | b
  · simp [resolveInteractive]
  · rcases b <;> simp [resolveInteractive]

/-- C10: with `single_item=true`, `_reproduce` reproduces exactly the
target's own stage: the call is the bare `_reproduce_stage` invocation (no
graph walk, no force cascade), and an exception raised by that stage's
reproduction propagates to the caller unchanged, not wrapped into a
`ReproductionError`. -/
theorem C10_single_item (renv : RepoEnv) (target node : String) (ds ibc : Bool)
    (kw : Kw) (eff : Eff) (hload : renv.loadNode target = .ok node) :
    reproduceOne renv target true ds ibc kw eff = reproduceStage renv.env node kw eff ∧
    (∀ e, renv.env.repro node kw = .error e →
      (reproduceOne renv target true ds ibc kw eff).2 = .error e ∧
      (reproduceOne renv target true ds ibc kw eff).1.visits.map Visit.node =
        eff.visits.map Visit.node ++ [node]) := by
  have h1 : reproduceOne renv target true ds ibc kw eff =
      reproduceStage renv.env node kw eff := by
    simp only [reproduceOne]
    rw [hload]
    simp
  refine ⟨h1, ?_⟩
  intro e he
  rw [h1]
  constructor
  · rw [reproduceStage_result, he]
  · rw [reproduceStage_visits]
    simp

/-- A repository whose single stage always raises, for the C10 witness. -/
def renvC10 : RepoEnv :=
  { env := ⟨fun _ => false, fun n => n, fun _ _ => .error (.other "boom")⟩,
    graph := ⟨[], []⟩, loadNode := fun t => .ok t, configInteractive := false,
    isDir := fun _ => false, dirPostorder := fun _ => [], rootJoin := id,
    getPipeline := fun _ => .ok ⟨[], []⟩, pipelines := [] }

/-- Witness for C10 at a failing single-item target. -/
theorem C10_single_item_witness :
    reproduceOne renvC10 "T" true false false ⟨false, false, none⟩ Eff.empty =
      reproduceStage renvC10.env "T" ⟨false, false, none⟩ Eff.empty ∧
    (∀ e, renvC10.env.repro "T" ⟨false, false, none⟩ = .error e →
      (reproduceOne renvC10 "T" true false false ⟨false, false, none⟩ Eff.empty).2 =
        .error e ∧
      (reproduceOne renvC10 "T" true false false ⟨false, false, none⟩
        Eff.empty).1.visits.map Visit.node =
        (Eff.empty).visits.map Visit.node ++ ["T"]) :=
  C10_single_item renvC10 "T" "T" false false ⟨false, false, none⟩ Eff.empty rfl
